import Mathlib

/-!
Verification of the request-ingest core of `lwan-request.c`.

Strings are modelled as `List Char`, one element per byte of a
NUL-terminated C string (interior NUL bytes never occur in the strings the
modelled functions receive).  Machine integers are modelled as `Nat`/`Int`
with explicit wrap-around where the C code can overflow.  Functions from
libc (`strtoul`, `sscanf`, `memchr`, `strcmp`, `qsort`, `bsearch`,
`snprintf`, `strncasecmp`) are modelled by their standard semantics as
implemented by glibc on Linux, the platform lwan targets.
-/

set_option maxRecDepth 20000

namespace Lwan

/-! ## Byte utilities -/

/-- `lwan_char_isxdigit(c)`: ASCII hexadecimal digit. -/
def isxdigit (c : Char) : Bool :=
  c.isDigit || ('A' ≤ c && c ≤ 'F') || ('a' ≤ c && c ≤ 'f')

/-- `decode_hex_digit(ch)`: `(ch <= '9') ? ch - '0' : (ch & 7) + 9`.
Only ever applied to validated hexadecimal digits. -/
def decode_hex_digit (c : Char) : Nat :=
  if c.toNat ≤ 57 then c.toNat - 48 else c.toNat % 8 + 9

/-- `url_decode(str)`: in-place, left-to-right percent-decoding.  `%HH` with
two hex digits becomes the byte `0xHH` (failure -EINVAL when that byte is
NUL), `+` becomes a space, any other byte — including a `%` not followed by
two hex digits — is copied verbatim.  The C function returns the new length;
we return the decoded byte string itself (`none` for failure). -/
def url_decode : List Char → Option (List Char)
  | [] => some []
  | '%' :: c1 :: c2 :: rest2 =>
    if isxdigit c1 && isxdigit c2 then
      let b := decode_hex_digit c1 * 16 + decode_hex_digit c2
      if b = 0 then none
      else (url_decode rest2).map (Char.ofNat b :: ·)
    else (url_decode (c1 :: c2 :: rest2)).map ('%' :: ·)
  | c :: rest =>
    if c = '+' then (url_decode rest).map (' ' :: ·)
    else (url_decode rest).map (c :: ·)

/-- C-locale `isspace`, as consulted by `strtoul` and `scanf`. -/
def isCSpace (c : Char) : Bool :=
  c = ' ' || c = '\t' || c = '\n' || c = '\x0b' || c = '\x0c' || c = '\r'

/-- Base-10 value of a digit string. -/
def digitsVal (ds : List Char) : Nat :=
  ds.foldl (fun acc c => acc * 10 + (c.toNat - 48)) 0

def ULONG_MAX : Nat := 2 ^ 64 - 1

/-- The optional single `+`/`-` sign of a `strtoul`/`scanf` integer
subject sequence: whether it was `-`, and the text after the sign. -/
def splitSign : List Char → Bool × List Char
  | '-' :: t => (true, t)
  | '+' :: t => (false, t)
  | s => (false, s)

/-- glibc `strtoul(s, &end, 10)` on an LP64 platform: skip C whitespace,
accept one optional `+`/`-` sign, consume a maximal run of digits.  Returns
(value, unconsumed suffix, range-error flag).  With no digits at all the
whole input is left unconsumed, 0 is returned and `errno` is untouched;
on magnitude overflow `ULONG_MAX` is returned with `ERANGE`; a `-` sign
negates modulo `2^64`. -/
def strtoul10 (s : List Char) : Nat × List Char × Bool :=
  let sg := splitSign (s.dropWhile isCSpace)
  let ds := sg.2.takeWhile Char.isDigit
  let rest := sg.2.dropWhile Char.isDigit
  if ds = [] then (0, s, false)
  else if digitsVal ds > ULONG_MAX then (ULONG_MAX, rest, true)
  else ((if sg.1 then (2 ^ 64 - digitsVal ds) % 2 ^ 64 else digitsVal ds), rest, false)

/-- `htons` on a little-endian host: byte swap of a 16-bit value. -/
def htons (v : Nat) : Nat := v % 256 * 256 + v / 256

/-- `parse_ascii_port(port, out)`: `strtoul` base 10; fails when `errno` was
set, when the end pointer is not at the terminating NUL, or when the value
does not round-trip through `unsigned short`; stores `htons(value)`. -/
def parse_ascii_port (s : List Char) : Option Nat :=
  let r := strtoul10 s
  if r.2.2 then none
  else if r.2.1 ≠ [] then none
  else if r.1 % 65536 ≠ r.1 then none
  else some (htons r.1)

/-- A base-10 numeral in the plain sense of the claim: one or more digits
and nothing else. -/
def isNumeral (s : List Char) : Bool :=
  !s.isEmpty && s.all Char.isDigit

/-! ## Request-line and header tokenizer -/

/-- `memchr(p, c, n)`: index of the first occurrence of `c`. -/
def memchrIdx (c : Char) : List Char → Option Nat
  | [] => none
  | a :: rest => if a = c then some 0 else (memchrIdx c rest).map (· + 1)

/-- The scanning loop of `parse_headers`.  `header_start` has 64 pointer
slots and every header line consumes two (start and end), so `slots` counts
the remaining `(line_start, line_end)` pairs: 32 at entry.  `rem` is the
unscanned byte range, `pos` the absolute offset of its first byte.
Each iteration looks for the next `'\r'` (`memchr`); no `'\r'` at all or an
empty line terminates with success, slot exhaustion with failure. -/
def phLoop : List Char → Nat → Nat → Bool × List (Nat × Nat)
  | _, _, 0 => (false, [])
  | rem, pos, slots + 1 =>
    match memchrIdx '\r' rem with
    | none => (true, [])
    | some i =>
      if i = 0 then (true, [(pos, pos)])
      else
        let r := phLoop (rem.drop (i + 2)) (pos + i + 2) slots
        (r.1, (pos, pos + i) :: r.2)

/-- `parse_headers(helper, buffer, buffer_end)`: `buffer` holds the bytes
from the character after the request line's `'\r'` (a `'\n'`) up to
`buffer_end`; scanning starts at `buffer + 1`.  Returns the success flag and
the recorded `(line_start, line_end)` offset pairs. -/
def parse_headers (buffer : List Char) : Bool × List (Nat × Nat) :=
  phLoop (buffer.drop 1) 1 32

/-- A well-formed header block: each line, none of which contains `'\r'`,
followed by `"\r\n"`, with a final empty line `"\r\n"` closing the block. -/
def encodeHeaderBlock (lines : List (List Char)) : List Char :=
  (lines.map (· ++ ['\r', '\n'])).flatten ++ ['\r', '\n']

/-! ## Request driver: rewrite loop -/

/-- The `lookup_again` loop of `lwan_process_request` seen through the
handler outcomes: `true` means the route allows rewriting and the handler
signalled `RESPONSE_URL_REWRITTEN`, `false` any outcome that ends the loop.
`handle_rewrite` first increments `urls_rewritten` (second argument) and
answers 500 once the counter passes 4.  Returns (final `urls_rewritten`,
number of route lookups performed, fatal-500 flag). -/
def rewrite_chain : List Bool → Nat → Nat × Nat × Bool
  | true :: rest, c =>
    if c + 1 > 4 then (c + 1, 1, true)
    else
      let r := rewrite_chain rest (c + 1)
      (r.1, r.2.1 + 1, r.2.2)
  | _, c => (c, 1, false)

/-! ## Socket reader: header finalizer -/

inductive FinalizerResult where
  | done
  | tryAgain
  | yieldTryAgain
  | tooLarge
  | timeout
deriving DecidableEq, Repr

/-- `memmem(buf, len, "\r\n\r\n", 4) != NULL`. -/
def hasCRLFCRLF : List Char → Bool
  | '\r' :: '\n' :: '\r' :: '\n' :: _ => true
  | _ :: rest => hasCRLFCRLF rest
  | [] => false

/-- `read_request_finalizer(total_read, buffer_size, helper, n_packets)`.
`buf` is the buffer's contents (`helper->buffer`, whose length the reader
keeps equal to `total_read`), `next_request` whether a pipelined tail was
pending.  Returns the decision together with the new `next_request` flag
(the pipelined-tail DONE branch clears it). -/
def read_request_finalizer (total_read buffer_size : Nat) (buf : List Char)
    (next_request : Bool) (n_packets error_when_n_packets : Nat) :
    FinalizerResult × Bool :=
  if n_packets > error_when_n_packets then (.timeout, next_request)
  else if total_read < 4 then (.yieldTryAgain, next_request)
  else if total_read = buffer_size then (.tooLarge, next_request)
  else if next_request then (.done, false)
  else if hasCRLFCRLF buf then (.done, next_request)
  else (.tryAgain, next_request)

/-! ## Header lookup -/

/-- C-locale `tolower` on a byte. -/
def asciiLower (c : Char) : Char :=
  if 'A' ≤ c && c ≤ 'Z' then Char.ofNat (c.toNat + 32) else c

/-- `strncasecmp(a, b, n) == 0` for `n` the length of `pat` (`pat` never
contains NUL, so comparison over the first `pat.length` bytes of the line
never crosses its terminator). -/
def ciEqList : List Char → List Char → Bool
  | [], [] => true
  | a :: as, b :: bs => asciiLower a = asciiLower b && ciEqList as bs
  | _, _ => false

/-- The scanning loop of `lwan_request_get_header` over the stored header
lines (each list element is the bytes of one line, `header_start[i]` to
`header_start[i+1]` exclusive). -/
def ghLoop : List (List Char) → List Char → Nat → Option (List Char)
  | [], _, _ => none
  | line :: rest, pat, r =>
    if line.length < r then ghLoop rest pat r
    else if ciEqList (line.take r) pat then some (line.drop r)
    else ghLoop rest pat r

/-- `lwan_request_get_header(request, header)`: `snprintf("%s: ")` into a
64-byte buffer — `r = strlen(header) + 2`, failing when `r` does not fit —
then the case-insensitive scan of the stored header lines. -/
def lwan_request_get_header (lines : List (List Char)) (header : List Char) :
    Option (List Char) :=
  let r := header.length + 2
  if r ≥ 64 then none
  else ghLoop lines (header ++ [':', ' ']) r

/-- The linear-scan reading of the same lookup, via `List.find?`. -/
def get_header_linear (lines : List (List Char)) (header : List Char) :
    Option (List Char) :=
  let r := header.length + 2
  (lines.find? fun l => decide (r ≤ l.length) &&
      ciEqList (l.take r) (header ++ [':', ' '])).map (·.drop r)

/-! ## Range header -/

/-- Modelled from the spec: the platform `off_t` maximum — 64-bit `off_t`
on the Linux targets, so `2^63 - 1` (`OFF_MAX` lives in a header outside
this file). -/
def OFF_MAX : Nat := 2 ^ 63 - 1

/-- `scanf`'s `%SCNu64` conversion (glibc): skip C whitespace, accept one
optional sign, require at least one digit; the digit run's magnitude
saturates at `2^64 - 1` on overflow and a `-` sign negates modulo `2^64`.
Returns the converted value and the unconsumed suffix. -/
def scanU64 (s : List Char) : Option (Nat × List Char) :=
  let sg := splitSign (s.dropWhile isCSpace)
  let ds := sg.2.takeWhile Char.isDigit
  let rest := sg.2.dropWhile Char.isDigit
  if ds = [] then none
  else if digitsVal ds > ULONG_MAX then some (ULONG_MAX, rest)
  else some ((if sg.1 then (2 ^ 64 - digitsVal ds) % 2 ^ 64 else digitsVal ds), rest)

/-- A literal character in a `scanf` format: matches exactly that next
input byte, with no whitespace skip. -/
def expectChar (c : Char) : List Char → Option (List Char)
  | a :: rest => if a = c then some rest else none
  | [] => none

/-- `sscanf(range, "%PRIu64-%PRIu64", &from, &to) == 2`. -/
def scanFromTo (s : List Char) : Option (Nat × Nat) :=
  match scanU64 s with
  | none => none
  | some (f, r1) =>
    match expectChar '-' r1 with
    | none => none
    | some r2 =>
      match scanU64 r2 with
      | none => none
      | some (t, _) => some (f, t)

/-- `sscanf(range, "-%PRIu64", &to) == 1`. -/
def scanSuffixLen (s : List Char) : Option Nat :=
  match expectChar '-' s with
  | none => none
  | some r1 =>
    match scanU64 r1 with
    | none => none
    | some (t, _) => some t

/-- `sscanf(range, "%PRIu64-", &from) == 1`: one assignment as soon as the
first conversion succeeds, whether or not the trailing literal matches. -/
def scanFromOnly (s : List Char) : Option Nat :=
  match scanU64 s with
  | none => none
  | some (f, _) => some f

/-- `parse_range(helper)`: `st` is the incoming `(range.from, range.to)`
pair (zero for a fresh, zero-initialised helper).  Values of length at most
6 or without the `bytes=` prefix leave the pair untouched; otherwise the
three `sscanf` shapes are tried in order and out-of-`off_t`-range numerals
produce the `(-1, -1)` sentinel. -/
def parse_range (raw : List Char) (st : Int × Int) : Int × Int :=
  if raw.length ≤ 6 then st
  else if raw.take 6 ≠ ['b', 'y', 't', 'e', 's', '='] then st
  else
    match scanFromTo (raw.drop 6) with
    | some (f, t) =>
      if f > OFF_MAX || t > OFF_MAX then (-1, -1) else ((f : Int), (t : Int))
    | none =>
      match scanSuffixLen (raw.drop 6) with
      | some t => if t > OFF_MAX then (-1, -1) else (0, (t : Int))
      | none =>
        match scanFromOnly (raw.drop 6) with
        | some f => if f > OFF_MAX then (-1, -1) else ((f : Int), -1)
        | none => (-1, -1)

/-! ## Connection header -/

/-- `STRING_SWITCH_L`: the four bytes at the scan position, each OR
`0x20`, compared against a four-byte constant (`pat` lists the four
case-folded target bytes). -/
def match4 (pat : List Nat) (s : List Char) : Bool :=
  match s with
  | a :: b :: c :: d :: _ =>
    [a.toNat ||| 32, b.toNat ||| 32, c.toNat ||| 32, d.toNat ||| 32] = pat
  | _ => false

/-- `MULTICHAR_CONSTANT_L('k','e','e','p')` / `(' ','k','e','e')`. -/
def keepP (s : List Char) : Bool :=
  match4 [107, 101, 101, 112] s || match4 [32, 107, 101, 101] s

/-- `MULTICHAR_CONSTANT_L('c','l','o','s')` / `(' ','c','l','o')`. -/
def closeP (s : List Char) : Bool :=
  match4 [99, 108, 111, 115] s || match4 [32, 99, 108, 111] s

/-- `MULTICHAR_CONSTANT_L('u','p','g','r')` / `(' ','u','p','g')`. -/
def upgrP (s : List Char) : Bool :=
  match4 [117, 112, 103, 114] s || match4 [32, 117, 112, 103] s

/-- The token scan of `parse_connection_header`: the C `for` loop applies a
`STRING_SWITCH_L` at the start of the value and, via `strchr(p, ',')`
followed by `p++`, at the position after every comma, stopping at the NUL.
Walking every position and applying the switch exactly at those segment
starts visits the same positions with the same effects (skipped positions
contribute nothing). `atStart` is true at the value's start and right after
a comma. -/
def connScanWalk : List Char → Bool → Bool → Bool → Bool → Bool × Bool × Bool
  | [], _, k, c, u => (k, c, u)
  | ch :: rest, atStart, k, c, u =>
    connScanWalk rest (ch = ',')
      (k || (atStart && keepP (ch :: rest)))
      (c || (atStart && closeP (ch :: rest)))
      (u || (atStart && upgrP (ch :: rest)))

/-- The scan over a whole Connection value: `(keep-alive, close, upgrade)`
booleans. -/
def connScan (s : List Char) : Bool × Bool × Bool :=
  connScanWalk s true false false false

/-- The connection flags `parse_connection_header` reads and writes:
`CONN_KEEP_ALIVE` and `CONN_IS_UPGRADE`. -/
structure ConnFlags where
  keepAlive : Bool
  isUpgrade : Bool
deriving DecidableEq, Repr

/-- `parse_connection_header(request)`.  `conn` is the helper's stored
Connection value; `none` models the NULL pointer a zero-initialised helper
holds when no Connection header was stored, in which case the C loop
condition reads `*p` through NULL — undefined behaviour, modelled as no
defined result. -/
def parse_connection_header (conn : Option (List Char)) (is_http_1_0 : Bool)
    (flags : ConnFlags) : Option ConnFlags :=
  match conn with
  | none => none
  | some s =>
    let r := connScan s
    let keep := if is_http_1_0 then r.1 else !r.2.1
    some { keepAlive := keep, isUpgrade := flags.isUpgrade || r.2.2 }

/-- The comma-separated segments of a header value (the positions the C
scan visits are the starts of these segments, except that a final empty
segment after a trailing comma is not visited — it matches nothing
anyway). -/
def segments : List Char → List (List Char)
  | [] => [[]]
  | c :: rest =>
    if c = ',' then [] :: segments rest
    else
      match segments rest with
      | seg :: segs => (c :: seg) :: segs
      | [] => [[c]]

/-! ## Key-value arrays -/

/-- A `struct lwan_key_value`: decoded key and value strings. -/
abbrev KV := List Char × List Char

/-- `strcmp` on the bytes of two NUL-free strings. -/
def strcmpO : List Char → List Char → Ordering
  | [], [] => .eq
  | [], _ :: _ => .lt
  | _ :: _, [] => .gt
  | a :: as, b :: bs =>
    if a = b then strcmpO as bs
    else if a.toNat < b.toNat then .lt
    else .gt

/-- `key_value_compare(a, b)`: `strcmp` of the two keys. -/
def key_value_compare (a b : KV) : Ordering := strcmpO a.1 b.1

/-- The order `qsort` establishes: `key_value_compare` at most zero. -/
def kvLe (a b : KV) : Prop := key_value_compare a b ≠ Ordering.gt

instance : DecidableRel kvLe := fun a b =>
  inferInstanceAs (Decidable (key_value_compare a b ≠ Ordering.gt))

/-- `strsep_char(strp, delim)`: the part before the first `delim` (the
whole string when there is none) and, when found, the part after it. -/
def strsep_char (delim : Char) (s : List Char) : List Char × Option (List Char) :=
  match s.dropWhile (· ≠ delim) with
  | [] => (s, none)
  | _ :: after => (s.takeWhile (· ≠ delim), some after)

/-- A decode callback (`url_decode` or `identity_decode`): the C return
code and the decoded bytes the callback leaves in place. -/
abbrev DecodeFn := List Char → Int × List Char

/-- `url_decode` as a decode callback: the new length on success,
`-EINVAL` on failure. -/
def url_decode_cb : DecodeFn := fun s =>
  match url_decode s with
  | some d => ((d.length : Int), d)
  | none => (-22, s)

/-- `identity_decode(input)`: always returns 1 and leaves the bytes
alone. -/
def identity_decode : DecodeFn := fun s => (1, s)

/-- One iteration's body of the `do`/`while (ptr)` loop of
`parse_key_values`, after the leading spaces/separators are skipped: cut
the item at the separator (`strsep_char`), cut it again at `'='` (no `'='`
means an empty value with no decoding), reject values whose decode is
negative and keys whose decode is not positive, and return the decoded
pair together with what follows the separator (`none` when the separator
was absent and the loop ends). -/
def parseItem (sep : Char) (decode : DecodeFn) (p1 : List Char) :
    Option (KV × Option (List Char)) :=
  match strsep_char '=' (strsep_char sep p1).1 with
  | (key, none) =>
    if (decode key).1 ≤ 0 then none
    else some (((decode key).2, []), (strsep_char sep p1).2)
  | (key, some v) =>
    if (decode v).1 < 0 then none
    else if (decode key).1 ≤ 0 then none
    else some (((decode key).2, (decode v).2), (strsep_char sep p1).2)

/-- The full loop: skip spaces and separators (an immediate end of string
is an error), run `parseItem`, append the decoded pair to the accumulated
array, and continue past the separator.  Any error resets the array
(`lwan_key_value_array_reset`): the caller then sees the empty array.
`fuel` only bounds the recursion; every iteration consumes at least one
byte, so `ptr.length + 1` is always enough. -/
def pkvLoop (sep : Char) (decode : DecodeFn) :
    Nat → List Char → List KV → Option (List KV)
  | 0, _, _ => none
  | fuel + 1, ptr, acc =>
    match ptr.dropWhile (fun ch => ch = ' ' || ch = sep) with
    | [] => none
    | c :: cs =>
      match parseItem sep decode (c :: cs) with
      | none => none
      | some (pair, none) => some (acc ++ [pair])
      | some (pair, some rest) => pkvLoop sep decode fuel rest (acc ++ [pair])

/-- `parse_key_values(request, helper_value, array, decode_value,
separator)`: nothing happens on an empty value; otherwise the loop either
fails — leaving the array reset to empty — or succeeds, and the array is
`qsort`ed by `key_value_compare` (modelled by the deterministic
`insertionSort`, one of the sorted permutations `qsort` may produce). -/
def parse_key_values (input : List Char) (decode : DecodeFn) (sep : Char) :
    List KV :=
  if input.isEmpty then []
  else
    match pkvLoop sep decode (input.length + 1) input [] with
    | none => []
    | some l => List.insertionSort kvLe l

/-- The claim-side reading of the same loop, written directly: the complete
parse of the whole input, or `none` as soon as any item fails. -/
def completeParse (sep : Char) (decode : DecodeFn) :
    Nat → List Char → Option (List KV)
  | 0, _ => none
  | fuel + 1, ptr =>
    match ptr.dropWhile (fun ch => ch = ' ' || ch = sep) with
    | [] => none
    | c :: cs =>
      match parseItem sep decode (c :: cs) with
      | none => none
      | some (pair, none) => some [pair]
      | some (pair, some rest) => (completeParse sep decode fuel rest).map (pair :: ·)

/-- glibc `bsearch` over the sorted array: the classic halving loop on the
index interval `[lo, hi)`.  `fuel` only bounds the recursion: the interval
shrinks strictly every step, so `hi - lo` is always enough. -/
def bsearchGo (arr : List KV) (key : List Char) :
    Nat → Nat → Nat → Option (List Char)
  | 0, _, _ => none
  | fuel + 1, lo, hi =>
    if lo < hi then
      match arr.get? ((lo + hi) / 2) with
      | none => none
      | some e =>
        match strcmpO key e.1 with
        | .lt => bsearchGo arr key fuel lo ((lo + hi) / 2)
        | .gt => bsearchGo arr key fuel ((lo + hi) / 2 + 1) hi
        | .eq => some e.2
    else none

/-- `value_lookup(array, key)`: NULL for an empty array, otherwise
`bsearch` with `key_value_compare`. -/
def value_lookup (arr : List KV) (key : List Char) : Option (List Char) :=
  if arr.isEmpty then none else bsearchGo arr key arr.length 0 arr.length

/-- The linear scan the claim compares the lookup against: the first entry
whose key equals the queried key. -/
def value_lookup_linear (arr : List KV) (key : List Char) : Option (List Char) :=
  (arr.find? fun e => e.1 == key).map (·.2)

/-- Strict ascending order of the keys, as the claim states it. -/
def strictlySortedByKey (arr : List KV) : Prop :=
  List.Pairwise (fun a b : KV => strcmpO a.1 b.1 = Ordering.lt) arr

instance (arr : List KV) : Decidable (strictlySortedByKey arr) :=
  inferInstanceAs (Decidable (List.Pairwise _ arr))

/-! ## General helper lemmas -/

theorem char_toNat_inj : ∀ {a b : Char}, a.toNat = b.toNat → a = b := by
  intro a b h
  apply Char.ext
  cases ha : a.val
  cases hb : b.val
  simp_all [Char.toNat, UInt32.toNat]
  exact congrArg UInt32.mk (BitVec.eq_of_toNat_eq h)

theorem len_takeWhile_le (p : Char → Bool) :
    ∀ l : List Char, (l.takeWhile p).length ≤ l.length := by
  intro l
  induction l with
  | nil => simp [List.takeWhile]
  | cons a as ih =>
    simp only [List.takeWhile]
    cases p a
    · simp
    · simpa using Nat.succ_le_succ ih

theorem len_dropWhile_le (p : Char → Bool) :
    ∀ l : List Char, (l.dropWhile p).length ≤ l.length := by
  intro l
  induction l with
  | nil => simp [List.dropWhile]
  | cons a as ih =>
    simp only [List.dropWhile]
    cases p a
    · simp
    · simp
      omega

theorem dropWhile_append_left (p : Char → Bool) (l₁ l₂ : List Char)
    (h : ∀ a ∈ l₁, p a = true) :
    (l₁ ++ l₂).dropWhile p = l₂.dropWhile p := by
  induction l₁ with
  | nil => simp
  | cons a as ih =>
    have ha : p a = true := h a (by simp)
    simp only [List.cons_append, List.dropWhile, ha]
    exact ih fun x hx => h x (by simp [hx])

theorem takeWhile_append_left (p : Char → Bool) (l₁ l₂ : List Char)
    (h : ∀ a ∈ l₁, p a = true) :
    (l₁ ++ l₂).takeWhile p = l₁ ++ l₂.takeWhile p := by
  induction l₁ with
  | nil => simp
  | cons a as ih =>
    have ha : p a = true := h a (by simp)
    simp only [List.cons_append, List.takeWhile, ha]
    simpa using ih fun x hx => h x (by simp [hx])

theorem takeWhile_all (p : Char → Bool) (l : List Char)
    (h : ∀ a ∈ l, p a = true) : l.takeWhile p = l :=
  List.takeWhile_eq_self_iff.mpr h

theorem dropWhile_all (p : Char → Bool) (l : List Char)
    (h : ∀ a ∈ l, p a = true) : l.dropWhile p = [] :=
  List.dropWhile_eq_nil_iff.mpr h

theorem takeWhile_cons_neg (p : Char → Bool) (a : Char) (l : List Char)
    (h : p a = false) : (a :: l).takeWhile p = [] := by
  simp [List.takeWhile, h]

theorem dropWhile_cons_neg (p : Char → Bool) (a : Char) (l : List Char)
    (h : p a = false) : (a :: l).dropWhile p = a :: l := by
  simp [List.dropWhile, h]

theorem takeWhile_cons_pos (p : Char → Bool) (a : Char) (l : List Char)
    (h : p a = true) : (a :: l).takeWhile p = a :: l.takeWhile p := by
  simp [List.takeWhile, h]

/-! ## C5: the rewrite cap -/

theorem rewrite_chain_aux : ∀ (ds : List Bool) (c : Nat), c ≤ 4 →
    (rewrite_chain ds c).1 ≤ 5 ∧
    (rewrite_chain ds c).2.1 ≤ 5 - c ∧
    ((rewrite_chain ds c).2.2 = true ↔ ds.take (5 - c) = List.replicate (5 - c) true) ∧
    ((rewrite_chain ds c).2.2 = true → (rewrite_chain ds c).1 = 5) := by
  intro ds
  induction ds with
  | nil =>
    intro c hc
    obtain ⟨n, hn⟩ : ∃ n, 5 - c = n + 1 := ⟨4 - c, by omega⟩
    refine ⟨by simp [rewrite_chain]; omega, by simp [rewrite_chain]; omega, ?_, ?_⟩
    · simp [rewrite_chain, hn]
    · simp [rewrite_chain]
  | cons d rest ih =>
    intro c hc
    obtain ⟨n, hn⟩ : ∃ n, 5 - c = n + 1 := ⟨4 - c, by omega⟩
    cases d with
    | false =>
      refine ⟨by simp [rewrite_chain]; omega, by simp [rewrite_chain]; omega, ?_, ?_⟩
      · simp [rewrite_chain, hn, List.replicate_succ]
      · simp [rewrite_chain]
    | true =>
      by_cases h4 : c + 1 > 4
      · have hc4 : c = 4 := by omega
        subst hc4
        refine ⟨by simp [rewrite_chain], by simp [rewrite_chain], ?_, by simp [rewrite_chain]⟩
        simp [rewrite_chain]
      · have hrec := ih (c + 1) (by omega)
        have hn' : 5 - (c + 1) = n := by omega
        rw [hn'] at hrec
        refine ⟨?_, ?_, ?_, ?_⟩
        · simpa [rewrite_chain, h4] using hrec.1
        · have := hrec.2.1
          simp [rewrite_chain, h4]
          omega
        · have := hrec.2.2.1
          simp [rewrite_chain, h4, hn, List.replicate_succ]
          exact this
        · have := hrec.2.2.2
          simpa [rewrite_chain, h4] using this

/-- C5 (corrected): at most four rewrites are honoured with a further route
lookup and at most five lookups happen in one call of
`lwan_process_request`; the fatal 500 happens exactly when the first five
handler outcomes all ask for a rewrite, and then `urls_rewritten` ends at
5, not 4. -/
theorem rewrite_chain_cap (ds : List Bool) :
    (rewrite_chain ds 0).1 ≤ 5 ∧
    (rewrite_chain ds 0).2.1 ≤ 5 ∧
    ((rewrite_chain ds 0).2.2 = true ↔ ds.take 5 = List.replicate 5 true) ∧
    ((rewrite_chain ds 0).2.2 = true → (rewrite_chain ds 0).1 = 5) := by
  simpa using rewrite_chain_aux ds 0 (by omega)

/-- C5 counterexample: after five handler rewrite requests the counter is
5, exceeding 4 — the claimed invariant `urls_rewritten ≤ 4` fails on the
fifth attempt even though the attempt is indeed answered with the fatal
500 and a fifth route lookup is the last. -/
theorem rewrite_chain_counterexample :
    rewrite_chain (List.replicate 5 true) 0 = (5, 5, true) ∧
    4 < (rewrite_chain (List.replicate 5 true) 0).1 := by decide

/-! ## C7: the header-read finalizer -/

/-- C7 (corrected): the finalizer's checks apply in priority order — packet
budget first (a timeout even when a complete request already sits in the
buffer), then fewer than 4 bytes (keep reading), then a full buffer (413
even when CRLFCRLF is present), then done on a pipelined tail or a CRLFCRLF
anywhere, else keep reading. -/
theorem read_request_finalizer_priorities
    (total_read buffer_size : Nat) (buf : List Char) (nr : Bool)
    (np bud : Nat) :
    (bud < np →
      read_request_finalizer total_read buffer_size buf nr np bud = (.timeout, nr)) ∧
    (np ≤ bud → total_read < 4 →
      read_request_finalizer total_read buffer_size buf nr np bud = (.yieldTryAgain, nr)) ∧
    (np ≤ bud → 4 ≤ total_read → total_read = buffer_size →
      read_request_finalizer total_read buffer_size buf nr np bud = (.tooLarge, nr)) ∧
    (np ≤ bud → 4 ≤ total_read → total_read ≠ buffer_size → nr = true →
      read_request_finalizer total_read buffer_size buf nr np bud = (.done, false)) ∧
    (np ≤ bud → 4 ≤ total_read → total_read ≠ buffer_size → nr = false →
      hasCRLFCRLF buf = true →
      read_request_finalizer total_read buffer_size buf nr np bud = (.done, false)) ∧
    (np ≤ bud → 4 ≤ total_read → total_read ≠ buffer_size → nr = false →
      hasCRLFCRLF buf = false →
      read_request_finalizer total_read buffer_size buf nr np bud = (.tryAgain, false)) := by
  refine ⟨?_, ?_, ?_, ?_, ?_, ?_⟩
  · intro h
    simp [read_request_finalizer, h]
  · intro h1 h2
    simp [read_request_finalizer, h2]
    omega
  · intro h1 h2 h3
    unfold read_request_finalizer
    rw [if_neg (by omega), if_neg (by omega), if_pos h3]
  · intro h1 h2 h3 h4
    subst h4
    unfold read_request_finalizer
    rw [if_neg (by omega), if_neg (by omega), if_neg h3]
    simp
  · intro h1 h2 h3 h4 h5
    subst h4
    unfold read_request_finalizer
    rw [if_neg (by omega), if_neg (by omega), if_neg h3]
    simp [h5]
  · intro h1 h2 h3 h4 h5
    subst h4
    unfold read_request_finalizer
    rw [if_neg (by omega), if_neg (by omega), if_neg h3]
    simp [h5]

/-- C7 witness: a buffer of 5 of 8 bytes holding `"a\r\n\r\n"` with no
pipelined tail and no exhausted budget is reported done. -/
theorem read_request_finalizer_witness :
    read_request_finalizer 5 8 ('a' :: '\r' :: '\n' :: '\r' :: '\n' :: [])
      false 0 16 = (.done, false) :=
  (read_request_finalizer_priorities 5 8 _ false 0 16).2.2.2.2.1
    (by omega) (by omega) (by omega) rfl (by decide)

/-- C7 counterexample: a full buffer that does contain `\r\n\r\n` is
answered 413 (`ERROR_TOO_LARGE`), where the claim's wording — too-large
only "without containing CRLFCRLF", done when `\r\n\r\n` appears anywhere —
demands done. -/
theorem read_request_finalizer_counterexample :
    read_request_finalizer 8 8
        ('a' :: 'b' :: '\r' :: '\n' :: '\r' :: '\n' :: 'c' :: 'd' :: [])
        false 0 16 = (.tooLarge, false) ∧
    hasCRLFCRLF ('a' :: 'b' :: '\r' :: '\n' :: '\r' :: '\n' :: 'c' :: 'd' :: []) = true := by
  decide

/-! ## C10: header lookup -/

theorem ghLoop_eq_find (pat : List Char) (r : Nat) :
    ∀ lines : List (List Char),
      ghLoop lines pat r =
        (lines.find? fun l => decide (r ≤ l.length) && ciEqList (l.take r) pat).map
          (·.drop r) := by
  intro lines
  induction lines with
  | nil => simp [ghLoop]
  | cons l rest ih =>
    by_cases hlen : l.length < r
    · have hp : (decide (r ≤ l.length) && ciEqList (l.take r) pat) = false := by
        simp [Nat.not_le.mpr hlen]
      rw [List.find?_cons_of_neg _ (by simp [hp])]
      simpa [ghLoop, hlen] using ih
    · cases hci : ciEqList (l.take r) pat
      · have hp : (decide (r ≤ l.length) && ciEqList (l.take r) pat) = false := by
          simp [hci]
        rw [List.find?_cons_of_neg _ (by simp [hp])]
        simpa [ghLoop, hlen, hci] using ih
      · have hp : (decide (r ≤ l.length) && ciEqList (l.take r) pat) = true := by
          simp [hci]
          omega
        have hle : r ≤ l.length := by omega
        simp [ghLoop, hlen, hci, List.find?_cons, hle]

/-- C10 (confirmed): `lwan_request_get_header` returns NULL without
scanning once the pattern `"name: "` needs 64 or more bytes — names of 62
bytes or longer — and otherwise returns exactly what a linear
case-insensitive scan of the stored header lines returns. -/
theorem get_header_spec (lines : List (List Char)) (header : List Char) :
    (62 ≤ header.length → lwan_request_get_header lines header = none) ∧
    (header.length < 62 →
      lwan_request_get_header lines header = get_header_linear lines header) := by
  constructor
  · intro h
    unfold lwan_request_get_header
    rw [if_pos (by omega)]
  · intro h
    unfold lwan_request_get_header get_header_linear
    rw [if_neg (by omega)]
    exact ghLoop_eq_find (header ++ [':', ' ']) (header.length + 2) lines

/-- C10 witness: a concrete two-line helper state, a short name that is
found case-insensitively and a 62-byte name that is rejected without a
scan. -/
theorem get_header_witness :
    lwan_request_get_header
        [['X', ':', ' ', 'y'], ['H', 'o', 's', 't', ':', ' ', 'h']]
        ['h', 'o', 's', 't'] =
      get_header_linear
        [['X', ':', ' ', 'y'], ['H', 'o', 's', 't', ':', ' ', 'h']]
        ['h', 'o', 's', 't'] ∧
    lwan_request_get_header [] (List.replicate 62 'a') = none :=
  ⟨(get_header_spec _ _).2 (by decide),
   (get_header_spec [] (List.replicate 62 'a')).1 (by decide)⟩

/-! ## C1: header tokenizer capacity -/

theorem memchrIdx_no_cr {h : List Char} (t : List Char) (hh : '\r' ∉ h) :
    memchrIdx '\r' (h ++ '\r' :: t) = some h.length := by
  induction h with
  | nil => simp [memchrIdx]
  | cons a as ih =>
    have ha : a ≠ '\r' := by
      intro e
      exact hh (by simp [e])
    have := ih (by intro e; exact hh (by simp [e]))
    simp [memchrIdx, ha, this]

theorem drop_append_cons (h t : List Char) (a b : Char) :
    (h ++ a :: b :: t).drop (h.length + 2) = t := by
  have : h ++ a :: b :: t = (h ++ [a, b]) ++ t := by simp
  rw [this]
  have hlen : h.length + 2 = (h ++ [a, b]).length := by simp
  rw [hlen, List.drop_left]

theorem phLoop_encode :
    ∀ (hs : List (List Char)) (pos slots : Nat),
      (∀ l ∈ hs, l ≠ [] ∧ '\r' ∉ l) →
      ((phLoop (encodeHeaderBlock hs) pos slots).1 = decide (hs.length < slots)) ∧
      (phLoop (encodeHeaderBlock hs) pos slots).2.length = min (hs.length + 1) slots := by
  intro hs
  induction hs with
  | nil =>
    intro pos slots _
    cases slots with
    | zero => simp [phLoop, encodeHeaderBlock]
    | succ n =>
      simp [phLoop, encodeHeaderBlock, memchrIdx]
  | cons h rest ih =>
    intro pos slots hwf
    have hh := hwf h (by simp)
    have hrest : ∀ l ∈ rest, l ≠ [] ∧ '\r' ∉ l := fun l hl => hwf l (by simp [hl])
    cases slots with
    | zero => simp [phLoop]
    | succ n =>
      have henc : encodeHeaderBlock (h :: rest) = h ++ '\r' :: '\n' :: encodeHeaderBlock rest := by
        simp [encodeHeaderBlock]
      have hmem : memchrIdx '\r' (encodeHeaderBlock (h :: rest)) = some h.length := by
        rw [henc]
        exact memchrIdx_no_cr _ hh.2
      have hlen0 : h.length ≠ 0 := by
        intro e
        exact hh.1 (List.length_eq_zero.mp e)
      have hdrop : (encodeHeaderBlock (h :: rest)).drop (h.length + 2) =
          encodeHeaderBlock rest := by
        rw [henc]
        exact drop_append_cons _ _ _ _
      have hrec := ih (pos + h.length + 2) n hrest
      simp only [phLoop, hmem]
      rw [if_neg hlen0]
      simp only [hdrop]
      refine ⟨?_, ?_⟩
      · rw [hrec.1, decide_eq_decide]
        simp only [List.length_cons]
        omega
      · simp only [List.length_cons]
        rw [hrec.2]
        omega

/-- C1 (corrected): `header_start` holds 64 pointers, i.e. 32
`(line_start, line_end)` pairs, not 64; at most 32 pairs are recorded,
`parse_headers` succeeds on a well-formed header block exactly when the
terminal empty line arrives within those 32 recorded lines (at most 31
non-empty header lines), and fails — the driver answering 400 — as soon as
the 64-slot table fills first. -/
theorem parse_headers_capacity :
    (∀ buffer : List Char, (parse_headers buffer).2.length ≤ 32) ∧
    (∀ hs : List (List Char), (∀ l ∈ hs, l ≠ [] ∧ '\r' ∉ l) →
      ((parse_headers ('\n' :: encodeHeaderBlock hs)).1 = true ↔ hs.length ≤ 31) ∧
      (parse_headers ('\n' :: encodeHeaderBlock hs)).2.length = min (hs.length + 1) 32) := by
  constructor
  · intro buffer
    have hgen : ∀ (slots : Nat) (rem : List Char) (pos : Nat),
        (phLoop rem pos slots).2.length ≤ slots := by
      intro slots
      induction slots with
      | zero => intro rem pos; simp [phLoop]
      | succ n ihn =>
        intro rem pos
        simp only [phLoop]
        cases memchrIdx '\r' rem with
        | none => simp
        | some i =>
          by_cases hi : i = 0
          · simp [hi]
          · simp only [hi, if_neg hi, List.length_cons]
            have := ihn (rem.drop (i + 1 + 1)) (pos + i + 2)
            simpa using Nat.succ_le_succ this
    exact hgen 32 (buffer.drop 1) 1
  · intro hs hwf
    have h := phLoop_encode hs 1 32 hwf
    constructor
    · rw [show parse_headers ('\n' :: encodeHeaderBlock hs) =
          phLoop (encodeHeaderBlock hs) 1 32 from rfl, h.1]
      constructor
      · intro hd
        have := of_decide_eq_true hd
        omega
      · intro hle
        exact decide_eq_true (by omega)
    · exact h.2

/-- C1 witness: one header line plus the empty line succeeds and records
two pairs. -/
theorem parse_headers_witness :
    ((parse_headers ('\n' :: encodeHeaderBlock [['H']])).1 = true ↔ (1 : Nat) ≤ 31) ∧
    (parse_headers ('\n' :: encodeHeaderBlock [['H']])).2.length = min 2 32 := by
  have := (parse_headers_capacity.2 [['H']] (by decide))
  simpa using this

/-- C1 counterexample: a block of 32 non-empty header lines followed by the
terminal empty line — 33 lines, well within the claimed capacity of 64 —
already fails (400), because the 64 pointer slots hold only 32 pairs. -/
theorem parse_headers_counterexample :
    (parse_headers ('\n' :: encodeHeaderBlock (List.replicate 32 ['A']))).1 = false ∧
    (List.replicate 32 (['A'] : List Char)).length + 1 = 33 := by
  decide

/-! ## C2: url_decode -/

theorem url_decode_cons_other {c : Char} (rest : List Char)
    (hc : c ≠ '%') (hp : c ≠ '+') :
    url_decode (c :: rest) = (url_decode rest).map (c :: ·) := by
  rw [url_decode.eq_3 c rest fun c1 c2 r2 e _ => hc e, if_neg hp]

theorem url_decode_verbatim :
    ∀ s : List Char, (∀ ch ∈ s, ch ≠ '%' ∧ ch ≠ '+') → url_decode s = some s := by
  intro s
  induction s with
  | nil => intro _; rfl
  | cons c rest ih =>
    intro h
    have hc := h c (by simp)
    rw [url_decode_cons_other rest hc.1 hc.2, ih fun x hx => h x (by simp [hx])]
    rfl

/-- C2 (corrected): `url_decode` rewrites left to right — `%HH` with two
hex digits becomes the byte `0xHH` and fails only when that byte is NUL,
`+` becomes a space, and every other byte is copied verbatim, *including*
a `%` not followed by two hex digits (a trailing lone `%` or `%X` does not
make it fail). -/
theorem url_decode_spec (s : List Char) (c1 c2 : Char) :
    ((∀ ch ∈ s, ch ≠ '%' ∧ ch ≠ '+') → url_decode s = some s) ∧
    (url_decode ('+' :: s) = (url_decode s).map (' ' :: ·)) ∧
    ((isxdigit c1 && isxdigit c2) = true →
      decode_hex_digit c1 * 16 + decode_hex_digit c2 = 0 →
      url_decode ('%' :: c1 :: c2 :: s) = none) ∧
    ((isxdigit c1 && isxdigit c2) = true →
      decode_hex_digit c1 * 16 + decode_hex_digit c2 ≠ 0 →
      url_decode ('%' :: c1 :: c2 :: s) =
        (url_decode s).map
          (Char.ofNat (decode_hex_digit c1 * 16 + decode_hex_digit c2) :: ·)) ∧
    ((isxdigit c1 && isxdigit c2) = false →
      url_decode ('%' :: c1 :: c2 :: s) =
        (url_decode (c1 :: c2 :: s)).map ('%' :: ·)) ∧
    (url_decode ['%'] = some ['%']) ∧
    (url_decode ['%', c1] = (url_decode [c1]).map ('%' :: ·)) := by
  refine ⟨url_decode_verbatim s, rfl, ?_, ?_, ?_, rfl, rfl⟩
  · intro hx h0
    rw [url_decode.eq_2, if_pos hx]
    simp [h0]
  · intro hx h0
    rw [url_decode.eq_2, if_pos hx]
    simp [h0]
  · intro hx
    rw [url_decode.eq_2, if_neg (by simp [hx])]

/-- C2 witness: `"%41+"` decodes to `"A "`, `"%00"` is rejected, and a plain
string round-trips. -/
theorem url_decode_witness :
    url_decode ['%', '4', '1'] = some ['A'] ∧
    url_decode ['%', '0', '0'] = none ∧
    url_decode ['a', 'b'] = some ['a', 'b'] :=
  ⟨by
    have h := (url_decode_spec [] '4' '1').2.2.2.1 (by decide) (by decide)
    simpa using h,
   by
    have h := (url_decode_spec [] '0' '0').2.2.1 (by decide) (by decide)
    simpa using h,
   (url_decode_spec ['a', 'b'] 'x' 'x').1 (by decide)⟩

/-- C2 counterexample: a trailing lone `%`, a `%` with a single hex digit,
and a `%` followed by non-hex bytes all succeed, the `%` copied verbatim —
the claim says each of these inputs must fail. -/
theorem url_decode_counterexample :
    url_decode ['%'] = some ['%'] ∧
    url_decode ['a', '%'] = some ['a', '%'] ∧
    url_decode ['%', '4'] = some ['%', '4'] ∧
    url_decode ['%', 'z', 'z'] = some ['%', 'z', 'z'] := by decide

/-! ## C4: parse_ascii_port -/

theorem digit_not_cspace {c : Char} (h : c.isDigit = true) : isCSpace c = false := by
  by_contra hc
  simp only [isCSpace, Bool.not_eq_false, Bool.or_eq_true, decide_eq_true_eq] at hc
  rcases hc with ((((e | e) | e) | e) | e) | e <;> subst e <;> simp at h

theorem digit_ne_sign {c : Char} (h : c.isDigit = true) : c ≠ '-' ∧ c ≠ '+' := by
  constructor <;> intro e <;> subst e <;> simp at h

theorem splitSign_not_sign {c : Char} (t : List Char) (hm : c ≠ '-') (hp : c ≠ '+') :
    splitSign (c :: t) = (false, c :: t) := by
  rw [splitSign.eq_3]
  · intro t' e
    injection e with e1 _
    exact hm e1
  · intro t' e
    injection e with e1 _
    exact hp e1

theorem mod_65536_lt {v : Nat} (h : v % 65536 = v) : v < 65536 := by
  have := Nat.mod_lt v (y := 65536) (by omega)
  omega

/-- C4 (corrected): `parse_ascii_port` succeeds exactly on the inputs
`strtoul` fully consumes — optional leading C whitespace, an optional
single sign, then one or more digits, or the completely empty string
(`strtoul` converts nothing, leaves `end_ptr` at the NUL and `errno`
untouched, so the port parses as 0) — whose value (wrapped modulo `2^64`
for `-`) fits 16 bits, stored in network byte order.  Plain numerals are
only a special case; a trailing byte after the digits or a value past
65535 still fails. -/
theorem parse_ascii_port_characterization (s : List Char) (p : Nat) :
    parse_ascii_port s = some p ↔
      (s = [] ∧ p = 0) ∨
      ∃ ws sg ds : List Char,
        s = ws ++ sg ++ ds ∧ (∀ ch ∈ ws, isCSpace ch = true) ∧
        (sg = [] ∨ sg = ['+'] ∨ sg = ['-']) ∧ ds ≠ [] ∧
        (∀ ch ∈ ds, ch.isDigit = true) ∧ digitsVal ds ≤ ULONG_MAX ∧
        (if sg = ['-'] then (2 ^ 64 - digitsVal ds) % 2 ^ 64 else digitsVal ds) < 65536 ∧
        p = htons (if sg = ['-'] then (2 ^ 64 - digitsVal ds) % 2 ^ 64 else digitsVal ds) := by
  constructor
  · intro h
    unfold parse_ascii_port at h
    by_cases hds : (splitSign (s.dropWhile isCSpace)).2.takeWhile Char.isDigit = []
    · have hval : strtoul10 s = (0, s, false) := by
        unfold strtoul10
        simp [hds]
      rw [hval] at h
      simp only at h
      by_cases hs : s = []
      · subst hs
        simp [htons] at h
        exact Or.inl ⟨rfl, h.symm⟩
      · simp [hs] at h
    · set sg := splitSign (s.dropWhile isCSpace) with hsg
      set ds := sg.2.takeWhile Char.isDigit with hds2
      by_cases hov : digitsVal ds > ULONG_MAX
      · have hval : strtoul10 s = (ULONG_MAX, sg.2.dropWhile Char.isDigit, true) := by
          unfold strtoul10
          simp only [← hsg, ← hds2]
          simp [hds, hov]
        rw [hval] at h
        simp at h
      · have hval : strtoul10 s =
            ((if sg.1 then (2 ^ 64 - digitsVal ds) % 2 ^ 64 else digitsVal ds),
              sg.2.dropWhile Char.isDigit, false) := by
          unfold strtoul10
          simp only [← hsg, ← hds2]
          simp [hds, hov]
        rw [hval] at h
        simp only [Bool.false_eq_true, if_false] at h
        set v := (if sg.1 then (2 ^ 64 - digitsVal ds) % 2 ^ 64 else digitsVal ds) with hv
        by_cases hrest : sg.2.dropWhile Char.isDigit = []
        · rw [if_neg (by simp [hrest])] at h
          by_cases hfit : v % 65536 = v
          · rw [if_neg (by simp [hfit])] at h
            -- decompose s
            have hsplit : s = s.takeWhile isCSpace ++ s.dropWhile isCSpace :=
              (List.takeWhile_append_dropWhile isCSpace s).symm
            have hs2 : sg.2 = ds := by
              conv_lhs => rw [← List.takeWhile_append_dropWhile Char.isDigit sg.2]
              rw [hrest, ← hds2, List.append_nil]
            refine Or.inr ?_
            cases hs1 : s.dropWhile isCSpace with
            | nil =>
              exfalso
              apply hds
              rw [hds2, hsg, hs1]
              rfl
            | cons c t =>
              by_cases hcm : c = '-'
              · subst hcm
                have hsgval : sg = (true, t) := by rw [hsg, hs1]; rfl
                refine ⟨s.takeWhile isCSpace, ['-'], ds, ?_, ?_, Or.inr (Or.inr rfl), hds, ?_, by omega, ?_, ?_⟩
                · have ht : t = ds := by rw [← hs2, hsgval]
                  conv_lhs => rw [hsplit, hs1, ht]
                  simp
                · intro ch hch
                  exact List.mem_takeWhile_imp hch
                · intro ch hch
                  rw [hds2] at hch
                  exact List.mem_takeWhile_imp hch
                · rw [if_pos rfl]
                  have : v = (2 ^ 64 - digitsVal ds) % 2 ^ 64 := by
                    rw [hv, hsgval]; simp
                  rw [← this]
                  exact mod_65536_lt hfit
                · rw [if_pos rfl]
                  injection h with h'
                  have : v = (2 ^ 64 - digitsVal ds) % 2 ^ 64 := by
                    rw [hv, hsgval]; simp
                  rw [← this, ← h']
              · by_cases hcp : c = '+'
                · subst hcp
                  have hsgval : sg = (false, t) := by rw [hsg, hs1]; rfl
                  refine ⟨s.takeWhile isCSpace, ['+'], ds, ?_, ?_, Or.inr (Or.inl rfl), hds, ?_, by omega, ?_, ?_⟩
                  · have ht : t = ds := by rw [← hs2, hsgval]
                    conv_lhs => rw [hsplit, hs1, ht]
                    simp
                  · intro ch hch
                    exact List.mem_takeWhile_imp hch
                  · intro ch hch
                    rw [hds2] at hch
                    exact List.mem_takeWhile_imp hch
                  · rw [if_neg (by simp)]
                    have : v = digitsVal ds := by rw [hv, hsgval]; simp
                    rw [← this]
                    exact mod_65536_lt hfit
                  · rw [if_neg (by simp)]
                    injection h with h'
                    have : v = digitsVal ds := by rw [hv, hsgval]; simp
                    rw [← this, ← h']
                · have hsgval : sg = (false, c :: t) := by
                    rw [hsg, hs1]
                    exact splitSign_not_sign t hcm hcp
                  refine ⟨s.takeWhile isCSpace, [], ds, ?_, ?_, Or.inl rfl, hds, ?_, by omega, ?_, ?_⟩
                  · have ht : c :: t = ds := by rw [← hs2, hsgval]
                    conv_lhs => rw [hsplit, hs1, ht]
                    simp
                  · intro ch hch
                    exact List.mem_takeWhile_imp hch
                  · intro ch hch
                    rw [hds2] at hch
                    exact List.mem_takeWhile_imp hch
                  · rw [if_neg (by simp)]
                    have : v = digitsVal ds := by rw [hv, hsgval]; simp
                    rw [← this]
                    exact mod_65536_lt hfit
                  · rw [if_neg (by simp)]
                    injection h with h'
                    have : v = digitsVal ds := by rw [hv, hsgval]; simp
                    rw [← this, ← h']
          · rw [if_pos (by simp [hfit])] at h
            cases h
        · rw [if_pos (by simp [hrest])] at h
          cases h
  · intro h
    rcases h with ⟨hs, hp⟩ | ⟨ws, sgl, ds, hsplit, hws, hsgl, hdsne, hdig, hle, hfit, hp⟩
    · subst hs hp
      rfl
    · have hdrop : s.dropWhile isCSpace = sgl ++ ds := by
        rw [hsplit, List.append_assoc, dropWhile_append_left isCSpace ws _ hws]
        obtain ⟨d, ds', hds'⟩ : ∃ d ds', ds = d :: ds' := by
          cases ds with
          | nil => exact absurd rfl hdsne
          | cons d ds' => exact ⟨d, ds', rfl⟩
        rcases hsgl with e | e | e <;> subst e
        · simp only [List.nil_append]
          rw [hds', dropWhile_cons_neg _ _ _ (digit_not_cspace (hdig d (by simp [hds'])))]
        · simp only [List.cons_append, List.nil_append]
          rw [dropWhile_cons_neg _ _ _ (by decide)]
        · simp only [List.cons_append, List.nil_append]
          rw [dropWhile_cons_neg _ _ _ (by decide)]
      have hsg : splitSign (s.dropWhile isCSpace) = (decide (sgl = ['-']), ds) := by
        rw [hdrop]
        obtain ⟨d, ds', hds'⟩ : ∃ d ds', ds = d :: ds' := by
          cases ds with
          | nil => exact absurd rfl hdsne
          | cons d ds' => exact ⟨d, ds', rfl⟩
        rcases hsgl with e | e | e <;> subst e
        · simp only [List.nil_append]
          rw [hds']
          have hd := digit_ne_sign (hdig d (by simp [hds']))
          rw [splitSign_not_sign ds' hd.1 hd.2]
          simp [hds']
        · simp only [List.cons_append, List.nil_append]
          simp [splitSign]
        · simp only [List.cons_append, List.nil_append]
          simp [splitSign]
      have htake : ds.takeWhile Char.isDigit = ds := takeWhile_all _ _ hdig
      have hdropd : ds.dropWhile Char.isDigit = [] := dropWhile_all _ _ hdig
      have hval : strtoul10 s =
          ((if sgl = ['-'] then (2 ^ 64 - digitsVal ds) % 2 ^ 64 else digitsVal ds),
            [], false) := by
        unfold strtoul10
        rw [hsg]
        simp only [htake, hdropd]
        rw [if_neg (by simp [htake, hdsne]), if_neg (by omega)]
        congr 1
        by_cases hm : sgl = ['-'] <;> simp [hm]
      have hww : (if sgl = ['-'] then (2 ^ 64 - digitsVal ds) % 2 ^ 64 else digitsVal ds) % 65536 =
          (if sgl = ['-'] then (2 ^ 64 - digitsVal ds) % 2 ^ 64 else digitsVal ds) :=
        Nat.mod_eq_of_lt hfit
      unfold parse_ascii_port
      rw [hval]
      show (if (false : Bool) = true then none
          else if ([] : List Char) ≠ [] then none
          else if (if sgl = ['-'] then (2 ^ 64 - digitsVal ds) % 2 ^ 64 else digitsVal ds) % 65536 ≠
              (if sgl = ['-'] then (2 ^ 64 - digitsVal ds) % 2 ^ 64 else digitsVal ds) then none
          else some (htons (if sgl = ['-'] then (2 ^ 64 - digitsVal ds) % 2 ^ 64 else digitsVal ds))) =
        some p
      rw [if_neg (by simp), if_neg (by simp), if_neg (not_ne_iff.mpr hww), hp]

/-- C4 witness: `"  80"` (leading whitespace) parses to `htons 80`;
`"80x"` fails on the trailing byte. -/
theorem parse_ascii_port_witness :
    parse_ascii_port [' ', ' ', '8', '0'] = some (htons 80) :=
  (parse_ascii_port_characterization [' ', ' ', '8', '0'] (htons 80)).mpr
    (Or.inr ⟨[' ', ' '], [], ['8', '0'], by decide, by decide, Or.inl rfl, by decide,
      by decide, by decide, by decide, by decide⟩)

/-- C4 counterexample: `"+80"` is not a base-10 numeral yet parses
(`strtoul` accepts the sign), and the empty string parses as port 0 — the
claim requires both to fail. -/
theorem parse_ascii_port_counterexample :
    parse_ascii_port ['+', '8', '0'] = some (htons 80) ∧
    isNumeral ['+', '8', '0'] = false ∧
    parse_ascii_port [] = some 0 := by decide

/-! ## C8: parse_range -/

theorem digits_subject (ds rest : List Char) (hne : ds ≠ [])
    (hdig : ∀ c ∈ ds, c.isDigit = true)
    (hrest : ∀ c, rest.head? = some c → c.isDigit = false) :
    (ds ++ rest).dropWhile isCSpace = ds ++ rest ∧
    splitSign (ds ++ rest) = (false, ds ++ rest) ∧
    (ds ++ rest).takeWhile Char.isDigit = ds ∧
    (ds ++ rest).dropWhile Char.isDigit = rest := by
  obtain ⟨d, ds', hds⟩ : ∃ d ds', ds = d :: ds' := by
    cases ds with
    | nil => exact absurd rfl hne
    | cons d ds' => exact ⟨d, ds', rfl⟩
  have hd : d.isDigit = true := hdig d (by simp [hds])
  have htr : rest.takeWhile Char.isDigit = [] := by
    cases rest with
    | nil => rfl
    | cons r t => exact takeWhile_cons_neg _ _ _ (hrest r rfl)
  have hdr : rest.dropWhile Char.isDigit = rest := by
    cases rest with
    | nil => rfl
    | cons r t => exact dropWhile_cons_neg _ _ _ (hrest r rfl)
  refine ⟨?_, ?_, ?_, ?_⟩
  · rw [hds, List.cons_append]
    exact dropWhile_cons_neg _ _ _ (digit_not_cspace hd)
  · rw [hds, List.cons_append]
    have hsgn := digit_ne_sign hd
    rw [splitSign_not_sign _ hsgn.1 hsgn.2]
  · rw [takeWhile_append_left _ _ _ hdig, htr, List.append_nil]
  · rw [dropWhile_append_left _ _ _ hdig, hdr]

theorem scanU64_digits (ds rest : List Char) (hne : ds ≠ [])
    (hdig : ∀ c ∈ ds, c.isDigit = true)
    (hrest : ∀ c, rest.head? = some c → c.isDigit = false) :
    scanU64 (ds ++ rest) = some (min (digitsVal ds) ULONG_MAX, rest) := by
  obtain ⟨h1, h2, h3, h4⟩ := digits_subject ds rest hne hdig hrest
  unfold scanU64
  rw [h1, h2]
  simp only [h3, h4]
  rw [if_neg hne]
  by_cases hov : digitsVal ds > ULONG_MAX
  · rw [if_pos hov]
    rw [Nat.min_eq_right (by omega)]
  · rw [if_neg hov]
    simp only [Bool.false_eq_true, if_false]
    rw [Nat.min_eq_left (by omega)]

theorem scanU64_neg_digits (ds rest : List Char) (hne : ds ≠ [])
    (hdig : ∀ c ∈ ds, c.isDigit = true)
    (hrest : ∀ c, rest.head? = some c → c.isDigit = false) :
    ∃ x, scanU64 ('-' :: (ds ++ rest)) = some (x, rest) := by
  obtain ⟨h1, h2, h3, h4⟩ := digits_subject ds rest hne hdig hrest
  unfold scanU64
  have hdw : ('-' :: (ds ++ rest)).dropWhile isCSpace = '-' :: (ds ++ rest) :=
    dropWhile_cons_neg _ _ _ (by decide)
  rw [hdw]
  have hsp : splitSign ('-' :: (ds ++ rest)) = (true, ds ++ rest) := rfl
  rw [hsp]
  simp only [h3, h4]
  rw [if_neg hne]
  by_cases hov : digitsVal ds > ULONG_MAX
  · exact ⟨ULONG_MAX, by rw [if_pos hov]⟩
  · refine ⟨(2 ^ 64 - digitsVal ds) % 2 ^ 64, ?_⟩
    rw [if_neg hov]
    simp

theorem scanU64_nil : scanU64 [] = none := rfl

theorem OFF_MAX_lt_ULONG_MAX : OFF_MAX < ULONG_MAX := by
  unfold OFF_MAX ULONG_MAX
  norm_num

/-- C8 (corrected): the `bytes=` prefix is required, but a Range value
without it (or no longer than `"bytes="` itself) leaves `(from, to)`
untouched — `(0, 0)` in a fresh zero-initialised helper — rather than
producing the sentinel; with the prefix, the three sscanf shapes `N-M`,
`-M` and `N-` parse as claimed, numerals past the `off_t` maximum yield
the `(-1, -1)` sentinel, and so does a prefixed value matching no shape,
such as `bytes=abc`. -/
theorem parse_range_spec (raw ds1 ds2 : List Char) (st : Int × Int) :
    (raw.length ≤ 6 → parse_range raw st = st) ∧
    (raw.take 6 ≠ ['b', 'y', 't', 'e', 's', '='] → parse_range raw st = st) ∧
    (ds1 ≠ [] → (∀ c ∈ ds1, c.isDigit = true) →
      ds2 ≠ [] → (∀ c ∈ ds2, c.isDigit = true) →
      digitsVal ds1 ≤ OFF_MAX → digitsVal ds2 ≤ OFF_MAX →
      parse_range (['b', 'y', 't', 'e', 's', '='] ++ (ds1 ++ '-' :: ds2)) st =
          ((digitsVal ds1 : Int), (digitsVal ds2 : Int)) ∧
      parse_range (['b', 'y', 't', 'e', 's', '='] ++ ('-' :: ds2)) st =
          (0, (digitsVal ds2 : Int)) ∧
      parse_range (['b', 'y', 't', 'e', 's', '='] ++ (ds1 ++ ['-'])) st =
          ((digitsVal ds1 : Int), -1)) ∧
    (ds1 ≠ [] → (∀ c ∈ ds1, c.isDigit = true) → OFF_MAX < digitsVal ds1 →
      parse_range (['b', 'y', 't', 'e', 's', '='] ++ (ds1 ++ ['-'])) st = (-1, -1)) ∧
    (parse_range "bytes=abc".data st = (-1, -1)) := by
  refine ⟨?_, ?_, ?_, ?_, ?_⟩
  · intro h
    unfold parse_range
    rw [if_pos h]
  · intro h
    unfold parse_range
    by_cases hlen : raw.length ≤ 6
    · rw [if_pos hlen]
    · rw [if_neg hlen, if_pos h]
  · intro h1ne h1d h2ne h2d hle1 hle2
    have hmin1 : min (digitsVal ds1) ULONG_MAX = digitsVal ds1 :=
      Nat.min_eq_left (by have := OFF_MAX_lt_ULONG_MAX; omega)
    have hmin2 : min (digitsVal ds2) ULONG_MAX = digitsVal ds2 :=
      Nat.min_eq_left (by have := OFF_MAX_lt_ULONG_MAX; omega)
    have hs2 : scanU64 ds2 = some (digitsVal ds2, []) := by
      have h0 := scanU64_digits ds2 [] h2ne h2d (by intro c e; cases e)
      rw [List.append_nil] at h0
      rw [h0, hmin2]
    refine ⟨?_, ?_, ?_⟩
    · -- N-M
      unfold parse_range
      rw [if_neg (by simp only [List.length_append, List.length_cons, List.length_nil]; omega),
        if_neg (by rw [List.take_left' (by rfl)]; simp),
        List.drop_left' (by rfl)]
      have hs1 : scanU64 (ds1 ++ '-' :: ds2) = some (digitsVal ds1, '-' :: ds2) := by
        rw [scanU64_digits ds1 ('-' :: ds2) h1ne h1d
          (by intro c e; injection e with e; subst e; decide), hmin1]
      unfold scanFromTo
      rw [hs1]
      simp only [expectChar]
      simp only [if_true]
      rw [hs2]
      have hn1 : ¬ digitsVal ds1 > OFF_MAX := by omega
      have hn2 : ¬ digitsVal ds2 > OFF_MAX := by omega
      simp [hn1, hn2]
    · -- -M
      unfold parse_range
      rw [if_neg (by simp only [List.length_append, List.length_cons, List.length_nil]; omega),
        if_neg (by rw [List.take_left' (by rfl)]; simp),
        List.drop_left' (by rfl)]
      obtain ⟨x, hx⟩ : ∃ x, scanU64 ('-' :: ds2) = some (x, []) := by
        have h0 := scanU64_neg_digits ds2 [] h2ne h2d (by intro c e; cases e)
        rwa [List.append_nil] at h0
      unfold scanFromTo
      rw [hx]
      simp only [expectChar]
      unfold scanSuffixLen
      simp only [expectChar]
      simp only [if_true]
      rw [hs2]
      have hn2 : ¬ digitsVal ds2 > OFF_MAX := by omega
      simp [hn2]
    · -- N-
      unfold parse_range
      rw [if_neg (by simp only [List.length_append, List.length_cons, List.length_nil]; omega),
        if_neg (by rw [List.take_left' (by rfl)]; simp),
        List.drop_left' (by rfl)]
      have hs1 : scanU64 (ds1 ++ ['-']) = some (digitsVal ds1, ['-']) := by
        rw [scanU64_digits ds1 ['-'] h1ne h1d
          (by intro c e; injection e with e; subst e; decide), hmin1]
      unfold scanFromTo
      rw [hs1]
      simp only [expectChar]
      simp only [if_true]
      rw [scanU64_nil]
      unfold scanSuffixLen
      obtain ⟨d, ds', hds⟩ : ∃ d ds', ds1 = d :: ds' := by
        cases ds1 with
        | nil => exact absurd rfl h1ne
        | cons d ds' => exact ⟨d, ds', rfl⟩
      have hdne : d ≠ '-' := (digit_ne_sign (h1d d (by simp [hds]))).1
      rw [hds]
      simp only [List.cons_append, expectChar, if_neg hdne]
      unfold scanFromOnly
      rw [← List.cons_append, ← hds, hs1]
      have hn1 : ¬ digitsVal ds1 > OFF_MAX := by omega
      simp [hn1]
  · intro h1ne h1d hgt
    unfold parse_range
    rw [if_neg (by simp only [List.length_append, List.length_cons, List.length_nil]; omega),
      if_neg (by rw [List.take_left' (by rfl)]; simp),
      List.drop_left' (by rfl)]
    have hs1 : scanU64 (ds1 ++ ['-']) = some (min (digitsVal ds1) ULONG_MAX, ['-']) :=
      scanU64_digits ds1 ['-'] h1ne h1d (by intro c e; injection e with e; subst e; decide)
    unfold scanFromTo
    rw [hs1]
    simp only [expectChar]
    simp only [if_true]
    rw [scanU64_nil]
    unfold scanSuffixLen
    obtain ⟨d, ds', hds⟩ : ∃ d ds', ds1 = d :: ds' := by
      cases ds1 with
      | nil => exact absurd rfl h1ne
      | cons d ds' => exact ⟨d, ds', rfl⟩
    have hdne : d ≠ '-' := (digit_ne_sign (h1d d (by simp [hds]))).1
    rw [hds]
    simp only [List.cons_append, expectChar, if_neg hdne]
    unfold scanFromOnly
    rw [← List.cons_append, ← hds, hs1]
    have hpos : OFF_MAX < min (digitsVal ds1) ULONG_MAX :=
      lt_min_iff.mpr ⟨hgt, OFF_MAX_lt_ULONG_MAX⟩
    simp [hpos]
  · show parse_range "bytes=abc".data st = (-1, -1)
    unfold parse_range
    rw [if_neg (by decide), if_neg (by decide)]
    decide

/-- C8 witness: the spec's three literal examples plus an out-of-range
numeral, through the general theorem and by direct evaluation. -/
theorem parse_range_witness :
    parse_range "bytes=100-200".data (0, 0) = (100, 200) ∧
    parse_range "bytes=-50".data (0, 0) = (0, 50) ∧
    parse_range "bytes=100-".data (0, 0) = (100, -1) := by
  have h := (parse_range_spec "x".data ['1', '0', '0'] ['2', '0', '0'] (0, 0)).2.2.1
    (by decide) (by decide) (by decide) (by decide) (by decide) (by decide)
  refine ⟨?_, by decide, by decide⟩
  have := h.1
  simpa using this

/-- C8 counterexample: a Range value without the `bytes=` prefix — `abc`,
matching none of the three shapes — leaves the zero-initialised
`(from, to) = (0, 0)` untouched instead of producing the claimed
`(-1, -1)` sentinel; the same happens for the prefix alone. -/
theorem parse_range_counterexample :
    parse_range "abc".data (0, 0) = (0, 0) ∧
    parse_range "bytes=".data (0, 0) = (0, 0) ∧
    ((0, 0) : Int × Int) ≠ (-1, -1) := by decide

/-! ## C3: Connection header and keep-alive -/

theorem match4_short (pat : List Nat) (s : List Char) (h : s.length < 4) :
    match4 pat s = false := by
  rcases s with _ | ⟨a, _ | ⟨b, _ | ⟨c, _ | ⟨d, t⟩⟩⟩⟩
  · rfl
  · rfl
  · rfl
  · rfl
  · simp only [List.length_cons] at h
    omega

theorem comma_fold : (','.toNat ||| 32) = 44 := by decide

theorem match4_takeWhile (pat : List Nat) (s : List Char) (hpat : (44 : Nat) ∉ pat) :
    match4 pat (s.takeWhile (· ≠ ',')) = match4 pat s := by
  rcases s with _ | ⟨a, _ | ⟨b, _ | ⟨c, _ | ⟨d, t⟩⟩⟩⟩
  · rfl
  · by_cases ha : a = ','
    · simp [List.takeWhile, ha, match4]
    · simp [List.takeWhile, ha, match4]
  · by_cases ha : a = ','
    · simp [List.takeWhile, ha, match4]
    · by_cases hb : b = ','
      · simp [List.takeWhile, ha, hb, match4]
      · simp [List.takeWhile, ha, hb, match4]
  · by_cases ha : a = ','
    · simp [List.takeWhile, ha, match4]
    · by_cases hb : b = ','
      · simp [List.takeWhile, ha, hb, match4]
      · by_cases hc : c = ','
        · simp [List.takeWhile, ha, hb, hc, match4]
        · simp [List.takeWhile, ha, hb, hc, match4]
  · by_cases ha : a = ','
    · subst ha
      rw [takeWhile_cons_neg _ _ _ (by simp), match4_short _ _ (by simp)]
      symm
      simp only [match4, comma_fold]
      rw [decide_eq_false_iff_not]
      intro e
      exact absurd (e ▸ (by simp : (44 : Nat) ∈ [44, b.toNat ||| 32, c.toNat ||| 32, d.toNat ||| 32])) hpat
    · by_cases hb : b = ','
      · subst hb
        rw [takeWhile_cons_pos _ _ _ (by simp [ha]), takeWhile_cons_neg _ _ _ (by simp),
          match4_short _ _ (by simp)]
        symm
        simp only [match4, comma_fold]
        rw [decide_eq_false_iff_not]
        intro e
        exact absurd (e ▸ (by simp : (44 : Nat) ∈ [a.toNat ||| 32, 44, c.toNat ||| 32, d.toNat ||| 32])) hpat
      · by_cases hc : c = ','
        · subst hc
          rw [takeWhile_cons_pos _ _ _ (by simp [ha]), takeWhile_cons_pos _ _ _ (by simp [hb]),
            takeWhile_cons_neg _ _ _ (by simp), match4_short _ _ (by simp)]
          symm
          simp only [match4, comma_fold]
          rw [decide_eq_false_iff_not]
          intro e
          exact absurd (e ▸ (by simp : (44 : Nat) ∈ [a.toNat ||| 32, b.toNat ||| 32, 44, d.toNat ||| 32])) hpat
        · by_cases hd : d = ','
          · subst hd
            rw [takeWhile_cons_pos _ _ _ (by simp [ha]), takeWhile_cons_pos _ _ _ (by simp [hb]),
              takeWhile_cons_pos _ _ _ (by simp [hc]), takeWhile_cons_neg _ _ _ (by simp),
              match4_short _ _ (by simp)]
            symm
            simp only [match4, comma_fold]
            rw [decide_eq_false_iff_not]
            intro e
            exact absurd (e ▸ (by simp : (44 : Nat) ∈ [a.toNat ||| 32, b.toNat ||| 32, c.toNat ||| 32, 44])) hpat
          · rw [takeWhile_cons_pos _ _ _ (by simp [ha]), takeWhile_cons_pos _ _ _ (by simp [hb]),
              takeWhile_cons_pos _ _ _ (by simp [hc]), takeWhile_cons_pos _ _ _ (by simp [hd])]
            simp [match4]

theorem keepP_takeWhile (s : List Char) :
    keepP (s.takeWhile (· ≠ ',')) = keepP s := by
  unfold keepP
  rw [match4_takeWhile _ _ (by decide), match4_takeWhile _ _ (by decide)]

theorem closeP_takeWhile (s : List Char) :
    closeP (s.takeWhile (· ≠ ',')) = closeP s := by
  unfold closeP
  rw [match4_takeWhile _ _ (by decide), match4_takeWhile _ _ (by decide)]

theorem upgrP_takeWhile (s : List Char) :
    upgrP (s.takeWhile (· ≠ ',')) = upgrP s := by
  unfold upgrP
  rw [match4_takeWhile _ _ (by decide), match4_takeWhile _ _ (by decide)]

theorem segments_shape :
    ∀ s : List Char, ∃ segs, segments s = s.takeWhile (· ≠ ',') :: segs := by
  intro s
  induction s with
  | nil => exact ⟨[], rfl⟩
  | cons ch rest ih =>
    by_cases hc : ch = ','
    · subst hc
      refine ⟨segments rest, ?_⟩
      rw [takeWhile_cons_neg _ _ _ (by simp)]
      simp [segments]
    · obtain ⟨segs, hsegs⟩ := ih
      refine ⟨segs, ?_⟩
      rw [takeWhile_cons_pos _ _ _ (by simp [hc])]
      simp only [segments]
      rw [if_neg hc, hsegs]

theorem segments_comma (rest : List Char) :
    segments (',' :: rest) = [] :: segments rest := by
  simp [segments]

theorem segments_tail_cons {ch : Char} (rest : List Char) (hc : ch ≠ ',') :
    (segments (ch :: rest)).tail = (segments rest).tail := by
  obtain ⟨segs, hsegs⟩ := segments_shape rest
  simp only [segments]
  rw [if_neg hc, hsegs]
  rfl

theorem connScanWalk_segments :
    ∀ s : List Char, ∀ k c u : Bool,
      (connScanWalk s true k c u =
        (k || (segments s).any keepP, c || (segments s).any closeP,
          u || (segments s).any upgrP)) ∧
      (connScanWalk s false k c u =
        (k || ((segments s).tail).any keepP, c || ((segments s).tail).any closeP,
          u || ((segments s).tail).any upgrP)) := by
  intro s
  induction s with
  | nil =>
    intro k c u
    constructor
    · simp [connScanWalk, segments, keepP, closeP, upgrP, match4]
    · simp [connScanWalk, segments]
  | cons ch rest ih =>
    intro k c u
    constructor
    · show connScanWalk rest (ch = ',')
          (k || (true && keepP (ch :: rest)))
          (c || (true && closeP (ch :: rest)))
          (u || (true && upgrP (ch :: rest))) = _
      by_cases hc : ch = ','
      · subst hc
        have hk : keepP (',' :: rest) = false := by
          rw [← keepP_takeWhile, takeWhile_cons_neg _ _ _ (by simp)]
          rfl
        have hcl : closeP (',' :: rest) = false := by
          rw [← closeP_takeWhile, takeWhile_cons_neg _ _ _ (by simp)]
          rfl
        have hu : upgrP (',' :: rest) = false := by
          rw [← upgrP_takeWhile, takeWhile_cons_neg _ _ _ (by simp)]
          rfl
        rw [show (decide ((',' : Char) = ',')) = true from by decide]
        simp only [Bool.true_and]
        rw [hk, hcl, hu]
        simp only [Bool.or_false]
        rw [(ih _ _ _).1, segments_comma]
        simp [keepP, closeP, upgrP, match4]
      · rw [show (decide (ch = ',')) = false from by simp [hc]]
        simp only [Bool.true_and]
        obtain ⟨segs, hsegs⟩ := segments_shape rest
        have hseg2 : segments (ch :: rest) =
            (ch :: rest.takeWhile (· ≠ ',')) :: segs := by
          simp only [segments]
          rw [if_neg hc, hsegs]
        have htail : (segments rest).tail = segs := by simp [hsegs]
        have hkeq : keepP (ch :: rest.takeWhile (· ≠ ',')) = keepP (ch :: rest) := by
          rw [← keepP_takeWhile (ch :: rest), takeWhile_cons_pos _ _ _ (by simp [hc])]
        have hceq : closeP (ch :: rest.takeWhile (· ≠ ',')) = closeP (ch :: rest) := by
          rw [← closeP_takeWhile (ch :: rest), takeWhile_cons_pos _ _ _ (by simp [hc])]
        have hueq : upgrP (ch :: rest.takeWhile (· ≠ ',')) = upgrP (ch :: rest) := by
          rw [← upgrP_takeWhile (ch :: rest), takeWhile_cons_pos _ _ _ (by simp [hc])]
        rw [(ih _ _ _).2, htail, hseg2]
        simp only [List.any_cons, hkeq, hceq, hueq]
        simp [Bool.or_assoc]
    · show connScanWalk rest (ch = ',')
          (k || (false && keepP (ch :: rest)))
          (c || (false && closeP (ch :: rest)))
          (u || (false && upgrP (ch :: rest))) = _
      simp only [Bool.false_and, Bool.or_false]
      by_cases hc : ch = ','
      · subst hc
        rw [show (decide ((',' : Char) = ',')) = true from by decide]
        rw [(ih _ _ _).1, segments_comma]
        rfl
      · rw [show (decide (ch = ',')) = false from by simp [hc]]
        rw [(ih _ _ _).2]
        rw [segments_tail_cons rest hc]

/-- C3: the keep-alive decision as the claim states it, for any *present*
Connection value (possibly empty): on HTTP/1.1 `CONN_KEEP_ALIVE` is set iff
no comma-separated segment starts with a (case-folded) `close` token, on
HTTP/1.0 iff some segment starts with a `keep-alive` token; the `upgrade`
token additionally ORs `CONN_IS_UPGRADE`.  When no Connection header was
stored the helper's value is the NULL pointer of the zero-initialised
helper and the C `for` loop dereferences it — undefined behaviour, no
defined result (the claim's "set when the Connection header is absent"
has no execution to back it). -/
theorem parse_connection_header_spec :
    (∀ (b : Bool) (fl : ConnFlags), parse_connection_header none b fl = none) ∧
    (∀ (s : List Char) (b : Bool) (fl : ConnFlags),
      parse_connection_header (some s) b fl =
        some ⟨if b then (segments s).any keepP else !((segments s).any closeP),
              fl.isUpgrade || (segments s).any upgrP⟩) := by
  constructor
  · intro b fl
    rfl
  · intro s b fl
    simp only [parse_connection_header, connScan]
    rw [(connScanWalk_segments s false false false).1]
    simp

/-! ## C6 and C9: key-value arrays -/

theorem char_ne_toNat {a b : Char} (h : a ≠ b) : a.toNat ≠ b.toNat :=
  fun e => h (char_toNat_inj e)

theorem strcmpO_self : ∀ a : List Char, strcmpO a a = .eq := by
  intro a
  induction a with
  | nil => rfl
  | cons x xs ih => simp [strcmpO, ih]

theorem strcmpO_eq_iff : ∀ a b : List Char, strcmpO a b = .eq ↔ a = b := by
  intro a
  induction a with
  | nil =>
    intro b
    cases b <;> simp [strcmpO]
  | cons x xs ih =>
    intro b
    cases b with
    | nil => simp [strcmpO]
    | cons y ys =>
      by_cases hxy : x = y
      · subst hxy
        simp [strcmpO, ih ys]
      · by_cases h2 : x.toNat < y.toNat <;> simp [strcmpO, hxy, h2]

theorem strcmpO_gt_iff_lt : ∀ a b : List Char, strcmpO a b = .gt ↔ strcmpO b a = .lt := by
  intro a
  induction a with
  | nil =>
    intro b
    cases b <;> simp [strcmpO]
  | cons x xs ih =>
    intro b
    cases b with
    | nil => simp [strcmpO]
    | cons y ys =>
      by_cases hxy : x = y
      · subst hxy
        simp [strcmpO, ih ys]
      · have hxy' : y ≠ x := Ne.symm hxy
        have hnn := char_ne_toNat hxy
        by_cases h2 : x.toNat < y.toNat
        · have h3 : ¬ y.toNat < x.toNat := by omega
          simp [strcmpO, hxy, hxy', h2, h3]
        · have h3 : y.toNat < x.toNat := by omega
          simp [strcmpO, hxy, hxy', h2, h3]

theorem strcmpO_nil_ne_gt : ∀ b : List Char, strcmpO [] b ≠ .gt := by
  intro b
  cases b <;> simp [strcmpO]

theorem strcmpO_le_trans :
    ∀ a b c : List Char, strcmpO a b ≠ .gt → strcmpO b c ≠ .gt → strcmpO a c ≠ .gt := by
  intro a
  induction a with
  | nil =>
    intro b c _ _
    exact strcmpO_nil_ne_gt c
  | cons x xs ih =>
    intro b c h1 h2
    cases b with
    | nil =>
      exact absurd (by simp [strcmpO] : strcmpO (x :: xs) [] = .gt) h1
    | cons y ys =>
      cases c with
      | nil =>
        exact absurd (by simp [strcmpO] : strcmpO (y :: ys) [] = .gt) h2
      | cons z zs =>
        by_cases hxy : x = y
        · subst hxy
          simp only [strcmpO, if_pos rfl] at h1
          by_cases hxz : x = z
          · subst hxz
            simp only [strcmpO, if_pos rfl] at h2 ⊢
            exact ih ys zs h1 h2
          · have hnn := char_ne_toNat hxz
            by_cases hlt : x.toNat < z.toNat
            · simp [strcmpO, hxz, hlt]
            · exfalso
              apply h2
              simp [strcmpO, hxz, hlt]
        · have hnn := char_ne_toNat hxy
          by_cases hlt : x.toNat < y.toNat
          · by_cases hyz : y = z
            · subst hyz
              simp [strcmpO, hxy, hlt]
            · have hnn2 := char_ne_toNat hyz
              by_cases hlt2 : y.toNat < z.toNat
              · have hxz : x.toNat < z.toNat := by omega
                have hxzne : x ≠ z := fun e => by
                  subst e
                  omega
                simp [strcmpO, hxzne, hxz]
              · exfalso
                apply h2
                simp [strcmpO, hyz, hlt2]
          · exfalso
            apply h1
            simp [strcmpO, hxy, hlt]

instance : IsTrans KV kvLe :=
  ⟨fun a b c h1 h2 => strcmpO_le_trans a.1 b.1 c.1 h1 h2⟩

instance : IsTotal KV kvLe :=
  ⟨fun a b => by
    by_cases h : strcmpO a.1 b.1 = .gt
    · right
      show strcmpO b.1 a.1 ≠ .gt
      rw [(strcmpO_gt_iff_lt _ _).mp h]
      simp
    · left
      exact h⟩

theorem parse_key_values_pairwise (input : List Char) (decode : DecodeFn) (sep : Char) :
    List.Pairwise kvLe (parse_key_values input decode sep) := by
  unfold parse_key_values
  by_cases he : input.isEmpty
  · simp [he]
  · rw [if_neg he]
    cases hm : pkvLoop sep decode (input.length + 1) input [] with
    | none => exact List.Pairwise.nil
    | some l => exact List.sorted_insertionSort kvLe l

theorem bsearchGo_sound (arr : List KV) (key : List Char) :
    ∀ fuel lo hi v, bsearchGo arr key fuel lo hi = some v →
      ∃ i e, lo ≤ i ∧ i < hi ∧ arr.get? i = some e ∧ e.1 = key ∧ e.2 = v := by
  intro fuel
  induction fuel with
  | zero =>
    intro lo hi v h
    simp [bsearchGo] at h
  | succ n ihn =>
    intro lo hi v h
    unfold bsearchGo at h
    by_cases hlt : lo < hi
    · rw [if_pos hlt] at h
      cases hg : arr.get? ((lo + hi) / 2) with
      | none =>
        rw [hg] at h
        cases h
      | some e =>
        rw [hg] at h
        have h2 : (match strcmpO key e.1 with
            | Ordering.lt => bsearchGo arr key n lo ((lo + hi) / 2)
            | Ordering.gt => bsearchGo arr key n ((lo + hi) / 2 + 1) hi
            | Ordering.eq => some e.2) = some v := h
        cases hcmp : strcmpO key e.1 with
        | lt =>
          rw [hcmp] at h2
          obtain ⟨i, e', h1x, h2x, h3x, h4x, h5x⟩ := ihn lo ((lo + hi) / 2) v h2
          exact ⟨i, e', h1x, by omega, h3x, h4x, h5x⟩
        | gt =>
          rw [hcmp] at h2
          obtain ⟨i, e', h1x, h2x, h3x, h4x, h5x⟩ := ihn ((lo + hi) / 2 + 1) hi v h2
          exact ⟨i, e', by omega, h2x, h3x, h4x, h5x⟩
        | eq =>
          rw [hcmp] at h2
          have h3 : some e.2 = some v := h2
          refine ⟨(lo + hi) / 2, e, by omega, by omega, hg,
            ((strcmpO_eq_iff _ _).mp hcmp).symm, ?_⟩
          injection h3 with h4
    · rw [if_neg hlt] at h
      cases h

theorem bsearchGo_complete (arr : List KV) (key : List Char)
    (hsort : List.Pairwise kvLe arr) :
    ∀ fuel lo hi, hi - lo ≤ fuel → hi ≤ arr.length →
      (∃ i e, lo ≤ i ∧ i < hi ∧ arr.get? i = some e ∧ e.1 = key) →
      (bsearchGo arr key fuel lo hi).isSome = true := by
  intro fuel
  induction fuel with
  | zero =>
    rintro lo hi hf hlen ⟨i, e, h1, h2, _, _⟩
    omega
  | succ n ihn =>
    rintro lo hi hf hlen ⟨i, e, hli, hih, hget, hkey⟩
    have hlt : lo < hi := by omega
    have hmidlt : (lo + hi) / 2 < hi := by omega
    have hmidge : lo ≤ (lo + hi) / 2 := by omega
    have hmidlen : (lo + hi) / 2 < arr.length := by omega
    obtain ⟨em, hgm⟩ : ∃ em, arr.get? ((lo + hi) / 2) = some em :=
      ⟨arr.get ⟨_, hmidlen⟩, List.get?_eq_get hmidlen⟩
    unfold bsearchGo
    rw [if_pos hlt, hgm]
    show (match strcmpO key em.1 with
        | Ordering.lt => bsearchGo arr key n lo ((lo + hi) / 2)
        | Ordering.gt => bsearchGo arr key n ((lo + hi) / 2 + 1) hi
        | Ordering.eq => some em.2).isSome = true
    have hilen : i < arr.length := by omega
    have hie : arr.get ⟨i, hilen⟩ = e := by
      have hx := List.get?_eq_get hilen
      rw [hget] at hx
      injection hx with h'
      exact h'.symm
    have hme : arr.get ⟨(lo + hi) / 2, hmidlen⟩ = em := by
      have hx := List.get?_eq_get hmidlen
      rw [hgm] at hx
      injection hx with h'
      exact h'.symm
    cases hcmp : strcmpO key em.1 with
    | eq => rfl
    | lt =>
      have hi_lt_mid : i < (lo + hi) / 2 := by
        by_contra hge
        push_neg at hge
        rcases Nat.eq_or_lt_of_le hge with heq | hlt2
        · have hem : em = e := by
            rw [← hme, ← hie]
            congr 1
            exact Fin.ext heq
          rw [hem, hkey, strcmpO_self] at hcmp
          cases hcmp
        · have hpw := List.pairwise_iff_get.mp hsort ⟨(lo + hi) / 2, hmidlen⟩ ⟨i, hilen⟩
            (by simpa using hlt2)
          rw [hie, hme] at hpw
          apply hpw
          show strcmpO em.1 e.1 = .gt
          rw [hkey]
          exact (strcmpO_gt_iff_lt _ _).mpr hcmp
      show (bsearchGo arr key n lo ((lo + hi) / 2)).isSome = true
      exact ihn lo ((lo + hi) / 2) (by omega) (by omega)
        ⟨i, e, hli, hi_lt_mid, hget, hkey⟩
    | gt =>
      have hmid_lt_i : (lo + hi) / 2 < i := by
        by_contra hge
        push_neg at hge
        rcases Nat.eq_or_lt_of_le hge with heq | hlt2
        · have hem : em = e := by
            rw [← hme, ← hie]
            congr 1
            exact Fin.ext heq.symm
          rw [hem, hkey, strcmpO_self] at hcmp
          cases hcmp
        · have hpw := List.pairwise_iff_get.mp hsort ⟨i, hilen⟩ ⟨(lo + hi) / 2, hmidlen⟩
            (by simpa using hlt2)
          rw [hie, hme] at hpw
          apply hpw
          show strcmpO e.1 em.1 = .gt
          rw [hkey]
          exact hcmp
      show (bsearchGo arr key n ((lo + hi) / 2 + 1) hi).isSome = true
      exact ihn ((lo + hi) / 2 + 1) hi (by omega) hlen
        ⟨i, e, by omega, hih, hget, hkey⟩

theorem value_lookup_linear_eq (arr : List KV) (key : List Char)
    (hsort : List.Pairwise kvLe arr) (hnd : (arr.map Prod.fst).Nodup) :
    value_lookup arr key = value_lookup_linear arr key := by
  by_cases hex : ∃ e ∈ arr, e.1 = key
  · obtain ⟨e0, he0mem, he0key⟩ := hex
    have hne : ¬ arr.isEmpty = true := by
      cases arr with
      | nil => cases he0mem
      | cons a l => simp
    unfold value_lookup
    rw [if_neg hne]
    obtain ⟨⟨i, hilen⟩, hgi⟩ := List.mem_iff_get.mp he0mem
    have hsome := bsearchGo_complete arr key hsort arr.length 0 arr.length
      (by omega) (le_refl _)
      ⟨i, e0, by omega, hilen, by rw [List.get?_eq_get hilen, hgi], he0key⟩
    obtain ⟨v, hv⟩ := Option.isSome_iff_exists.mp hsome
    rw [hv]
    obtain ⟨j, ej, _, hjlt, hgj, hjkey, hjval⟩ := bsearchGo_sound arr key _ _ _ _ hv
    cases hfind : arr.find? (fun e => e.1 == key) with
    | none =>
      exfalso
      have := List.find?_eq_none.mp hfind e0 he0mem
      simp [he0key] at this
    | some e1 =>
      have he1 : e1.1 = key := by
        have := List.find?_some hfind
        simpa using this
      have he1mem := List.mem_of_find?_eq_some hfind
      have hej_mem : ej ∈ arr := List.get?_mem hgj
      have hej1 : ej = e1 :=
        List.inj_on_of_nodup_map hnd hej_mem he1mem (by rw [hjkey, he1])
      unfold value_lookup_linear
      rw [hfind]
      simp [← hjval, hej1]
  · push_neg at hex
    have hlin : value_lookup_linear arr key = none := by
      unfold value_lookup_linear
      rw [List.find?_eq_none.mpr fun x hx => by simpa using hex x hx]
      rfl
    rw [hlin]
    unfold value_lookup
    by_cases hne : arr.isEmpty
    · rw [if_pos hne]
    · rw [if_neg hne]
      cases hb : bsearchGo arr key arr.length 0 arr.length with
      | none => rfl
      | some v =>
        exfalso
        obtain ⟨i, e, _, _, hget, hkey, _⟩ := bsearchGo_sound arr key _ _ _ _ hb
        exact hex e (List.get?_mem hget) hkey

/-- C6 (corrected): the arrays `parse_key_values` builds are sorted
ascending by key, but only weakly — repeated keys (legal in query strings
and forms) sit adjacent in unspecified relative order, so the order is not
*strictly* ascending; the `bsearch` lookup agrees with a linear scan
whenever the keys are pairwise distinct (with repeated keys it still finds
an entry with the queried key, though possibly not the scan's first). -/
theorem parse_key_values_sorted_lookup (input : List Char) (decode : DecodeFn)
    (sep : Char) (key : List Char) :
    List.Pairwise kvLe (parse_key_values input decode sep) ∧
    (((parse_key_values input decode sep).map Prod.fst).Nodup →
      value_lookup (parse_key_values input decode sep) key =
        value_lookup_linear (parse_key_values input decode sep) key) := by
  refine ⟨parse_key_values_pairwise input decode sep, fun hnd => ?_⟩
  exact value_lookup_linear_eq _ _ (parse_key_values_pairwise input decode sep) hnd

/-- C6 witness: for `"b=2&a=1"` the parse is sorted and the bsearch lookup
agrees with the linear scan at a concrete key. -/
theorem parse_key_values_sorted_lookup_witness :
    List.Pairwise kvLe (parse_key_values ('b' :: '=' :: '2' :: '&' :: 'a' :: '=' :: '1' :: []) url_decode_cb '&') ∧
    value_lookup (parse_key_values ('b' :: '=' :: '2' :: '&' :: 'a' :: '=' :: '1' :: []) url_decode_cb '&') ['a'] =
      value_lookup_linear (parse_key_values ('b' :: '=' :: '2' :: '&' :: 'a' :: '=' :: '1' :: []) url_decode_cb '&') ['a'] :=
  ⟨(parse_key_values_sorted_lookup ('b' :: '=' :: '2' :: '&' :: 'a' :: '=' :: '1' :: []) url_decode_cb '&' ['a']).1,
   (parse_key_values_sorted_lookup ('b' :: '=' :: '2' :: '&' :: 'a' :: '=' :: '1' :: []) url_decode_cb '&' ['a']).2
     (by decide)⟩

/-- C6 counterexample: the duplicate-key query string `a=1&a=2` parses to
two entries with equal keys — the array is not strictly ascending by key —
and on it the `bsearch` lookup returns `"2"` where the linear scan returns
`"1"`. -/
theorem parse_key_values_counterexample :
    parse_key_values ('a' :: '=' :: '1' :: '&' :: 'a' :: '=' :: '2' :: []) url_decode_cb '&' =
      [(['a'], ['1']), (['a'], ['2'])] ∧
    ¬ strictlySortedByKey [(['a'], ['1']), (['a'], ['2'])] ∧
    value_lookup [(['a'], ['1']), (['a'], ['2'])] ['a'] = some ['2'] ∧
    value_lookup_linear [(['a'], ['1']), (['a'], ['2'])] ['a'] = some ['1'] := by
  decide

/-- The accumulator-passing loop equals the direct-style complete parse
with the accumulator prepended: a bridge between the embedded C loop and
the all-or-nothing reading of the claim. -/
theorem pkv_eq_complete (sep : Char) (decode : DecodeFn) :
    ∀ (fuel : Nat) (ptr : List Char) (acc : List KV),
      pkvLoop sep decode fuel ptr acc =
        (completeParse sep decode fuel ptr).map (acc ++ ·) := by
  intro fuel
  induction fuel with
  | zero =>
    intro ptr acc
    rfl
  | succ n ihn =>
    intro ptr acc
    simp only [pkvLoop, completeParse]
    cases hp1 : ptr.dropWhile (fun ch => ch = ' ' || ch = sep) with
    | nil => rfl
    | cons x xs =>
      show (match parseItem sep decode (x :: xs) with
            | none => none
            | some (pair, none) => some (acc ++ [pair])
            | some (pair, some rest) => pkvLoop sep decode n rest (acc ++ [pair])) =
          Option.map (fun l => acc ++ l)
            (match parseItem sep decode (x :: xs) with
             | none => none
             | some (pair, none) => some [pair]
             | some (pair, some rest) =>
               Option.map (fun l => pair :: l) (completeParse sep decode n rest))
      cases hitem : parseItem sep decode (x :: xs) with
      | none => rfl
      | some pr =>
        obtain ⟨pair, restO⟩ := pr
        cases restO with
        | none => rfl
        | some rest =>
          show pkvLoop sep decode n rest (acc ++ [pair]) =
            ((completeParse sep decode n rest).map (pair :: ·)).map (acc ++ ·)
          rw [ihn rest _]
          cases completeParse sep decode n rest with
          | none => rfl
          | some l =>
            simp [List.append_assoc]

/-- C9: `parse_key_values` is all-or-nothing.  When the direct complete
parse of the input fails anywhere (undecodable key or value, empty key, or
a separator followed only by spaces and separators before the end), the
caller sees the empty array — the loop's error paths reset it, discarding
every pair already appended; when the complete parse succeeds, the caller
sees exactly the complete list of pairs, sorted.  The trailing-separator
query string `a=1&` is such an error: it yields zero entries even though
`a=1` was parsed and appended first. -/
theorem parse_key_values_all_or_nothing (input : List Char) (decode : DecodeFn) (sep : Char) :
    (completeParse sep decode (input.length + 1) input = none →
      parse_key_values input decode sep = []) ∧
    (∀ l, completeParse sep decode (input.length + 1) input = some l →
      parse_key_values input decode sep = List.insertionSort kvLe l) ∧
    parse_key_values ('a' :: '=' :: '1' :: '&' :: []) url_decode_cb '&' = [] ∧
    completeParse '&' url_decode_cb 5 ('a' :: '=' :: '1' :: '&' :: []) = none := by
  refine ⟨?_, ?_, by decide, by decide⟩
  · intro hc
    by_cases he : input.isEmpty
    · simp [parse_key_values, he]
    · simp only [parse_key_values, if_neg he]
      rw [pkv_eq_complete, hc]
      rfl
  · intro l hc
    by_cases he : input.isEmpty
    · rw [List.isEmpty_iff.mp he] at hc
      exact Option.noConfusion hc
    · simp only [parse_key_values, if_neg he]
      rw [pkv_eq_complete, hc]
      simp

end Lwan
